import Mathlib

/-!
Verification of the collaborative-session relay of 3d-review-hub
(`src/server.js`, `io.on(connection)` handler block, lines 329-362).

The relay keeps two membership structures, both modelled here:
* `activeRooms` — the registry owned by the handler, a JS `Map` from project id to a
  `Set` of socket ids (`const activeRooms = new Map()`);
* the room membership of the socket.io adapter, maintained by `socket.join(room)`
  and consulted by `socket.to(room).emit(...)`, which delivers to every socket
  currently in the room except the sender.  On transport disconnect the
  adapter removes the socket from all of its rooms before the `disconnect`
  handler runs.

JS `Map` and `Set` preserve insertion order, so both are embedded as
association lists / lists with set-like insertion.
-/

/-- Socket identifier (`socket.id`), an opaque string assigned at connect time. -/
abbrev Sid := String

/-- Room identifier (`projectId`), a string. -/
abbrev RoomId := String

/-- Membership map from room id to member list (JS `Map` of `Set`, insertion order). -/
abbrev RoomMap := List (RoomId × List Sid)

/-- Boolean list membership, mirroring JS `Set.has` / array scan. -/
def listMem (s : List Sid) (c : Sid) : Bool :=
  match s with
  | [] => false
  | x :: xs => x == c || listMem xs c

/-- JS `Set.add`: insert at the end unless already present. -/
def setAdd (s : List Sid) (c : Sid) : List Sid :=
  if listMem s c then s else s ++ [c]

/-- JS `Set.delete` on a duplicate-free list: drop every occurrence of `c`. -/
def setDel (s : List Sid) (c : Sid) : List Sid :=
  s.filter (fun x => !(x == c))

/-- JS `Map.get` on the association list: first binding of `r`, if any. -/
def findRoom (m : RoomMap) (r : RoomId) : Option (List Sid) :=
  match m with
  | [] => none
  | (k, v) :: rest => if k == r then some v else findRoom rest r

/-- JS `Map.set`: replace the binding of `r` if present, otherwise append it. -/
def mapSet (m : RoomMap) (r : RoomId) (v : List Sid) : RoomMap :=
  match m with
  | [] => [(r, v)]
  | (k, w) :: rest => if k == r then (r, v) :: rest else (k, w) :: mapSet rest r v

/-- Membership test through the map: is `c` in the member set of room `r`. -/
def memberOf (m : RoomMap) (r : RoomId) (c : Sid) : Bool :=
  listMem ((findRoom m r).getD []) c

/-- Member list of room `r` (empty when the room has no entry). -/
def memberList (m : RoomMap) (r : RoomId) : List Sid :=
  (findRoom m r).getD []

/-- Number of occurrences of `c` in a member list. -/
def countMem (s : List Sid) (c : Sid) : Nat :=
  match s with
  | [] => 0
  | x :: xs => (if x == c then 1 else 0) + countMem xs c

/-- Effect of the `join-room` handler on a membership map:
`if (!activeRooms.has(projectId)) activeRooms.set(projectId, new Set());`
`activeRooms.get(projectId).add(socket.id);`
(also the effect of `socket.join(projectId)` on the adapter rooms). -/
def roomJoin (m : RoomMap) (r : RoomId) (c : Sid) : RoomMap :=
  match findRoom m r with
  | none => m ++ [(r, [c])]
  | some s => mapSet m r (setAdd s c)

/-- Effect of removing socket `c` from every room, dropping rooms that become
empty.  This is both the automatic adapter room cleanup on disconnect and
the loop of the `disconnect` handler
`for (const [roomId, users] of activeRooms.entries()) { if (users.delete(socket.id)) { ...; if (users.size === 0) activeRooms.delete(roomId); } }`. -/
def roomDisconnect (m : RoomMap) (c : Sid) : RoomMap :=
  match m with
  | [] => []
  | (k, v) :: rest =>
    if listMem v c then
      if setDel v c == [] then roomDisconnect rest c
      else (k, setDel v c) :: roomDisconnect rest c
    else (k, v) :: roomDisconnect rest c

/-- Recipient set of `socket.to(r).emit(...)` issued by `sender`: every socket
currently in adapter room `r` other than the sender. -/
def roomRecipients (sio : RoomMap) (r : RoomId) (sender : Sid) : List Sid :=
  (memberList sio r).filter (fun x => !(x == sender))

/-- Inbound transport events handled by the relay. -/
inductive Event where
  | connect (c : Sid)
  | joinRoom (c : Sid) (r : RoomId)
  | cameraUpdate (c : Sid) (r : RoomId) (pos rot : String)
  | annotationAdd (c : Sid) (r : RoomId) (anno : String)
  | disconnect (c : Sid)
deriving DecidableEq, Repr

/-- Outbound messages the relay emits (payloads relayed verbatim). -/
inductive Msg where
  | userJoined (userId : Sid)
  | cameraUpdated (userId : Sid) (pos rot : String)
  | annotationAdded (userId : Sid) (anno : String)
  | userLeft (userId : Sid)
deriving DecidableEq, Repr

/-- One delivered message: recipient socket id paired with the message. -/
abbrev Delivery := Sid × Msg

/-- Relay state: the connected sockets, the adapter room membership, and the
`activeRooms` registry of the handler. -/
structure RelayState where
  connected : List Sid
  sioRooms : RoomMap
  activeRooms : RoomMap
deriving DecidableEq, Repr

/-- State at server start: no connections, no rooms. -/
def initState : RelayState := ⟨[], [], []⟩

/-- Emissions of the `disconnect` handler: one `user-left` broadcast per
registry room that contained the socket, delivered through `socket.to(roomId)`
against the adapter state `sio` (the socket has already left its rooms). -/
def disconnectEmits (act : RoomMap) (sio : RoomMap) (c : Sid) : List Delivery :=
  match act with
  | [] => []
  | (k, v) :: rest =>
    if listMem v c then
      ((roomRecipients sio k c).map (fun d => (d, Msg.userLeft c))) ++ disconnectEmits rest sio c
    else disconnectEmits rest sio c

/-- One step of the relay: the handler for each event (server.js 331-361),
returning the new state and the deliveries the step performs. -/
def step (s : RelayState) (e : Event) : RelayState × List Delivery :=
  match e with
  | .connect c =>
    (⟨setAdd s.connected c, s.sioRooms, s.activeRooms⟩, [])
  | .joinRoom c r =>
    let sio := roomJoin s.sioRooms r c
    let act := roomJoin s.activeRooms r c
    (⟨s.connected, sio, act⟩,
     (roomRecipients sio r c).map (fun d => (d, Msg.userJoined c)))
  | .cameraUpdate c r pos rot =>
    (s, (roomRecipients s.sioRooms r c).map (fun d => (d, Msg.cameraUpdated c pos rot)))
  | .annotationAdd c r anno =>
    (s, (roomRecipients s.sioRooms r c).map (fun d => (d, Msg.annotationAdded c anno)))
  | .disconnect c =>
    let sio := roomDisconnect s.sioRooms c
    let act := roomDisconnect s.activeRooms c
    (⟨setDel s.connected c, sio, act⟩, disconnectEmits s.activeRooms sio c)

/-- Run the relay from state `s` over a list of events, keeping only the state. -/
def execFrom (s : RelayState) : List Event → RelayState
  | [] => s
  | e :: es => execFrom (step s e).1 es

/-- State of the relay after a trace of events from server start. -/
def exec (tr : List Event) : RelayState := execFrom initState tr

/-- Validity context: socket ids ever used, and ids currently connected. -/
structure VCtx where
  used : List Sid
  conn : List Sid
deriving DecidableEq, Repr

/-- Whether event `e` may occur in context `v` (transport guarantees: events
come only from connected sockets, and socket ids are never reused), and the
context afterwards. -/
def vstep (v : VCtx) (e : Event) : Bool × VCtx :=
  match e with
  | .connect c => (!(listMem v.used c), ⟨setAdd v.used c, setAdd v.conn c⟩)
  | .joinRoom c _ => (listMem v.conn c, v)
  | .cameraUpdate c _ _ _ => (listMem v.conn c, v)
  | .annotationAdd c _ _ => (listMem v.conn c, v)
  | .disconnect c => (listMem v.conn c, ⟨v.used, setDel v.conn c⟩)

/-- Validity of an event list from context `v`. -/
def validFrom (v : VCtx) : List Event → Bool
  | [] => true
  | e :: es => (vstep v e).1 && validFrom (vstep v e).2 es

/-- Context after processing an event list from context `v`. -/
def vafter (v : VCtx) : List Event → VCtx
  | [] => v
  | e :: es => vafter (vstep v e).2 es

/-- Validity of a trace from server start. -/
def validTrace (tr : List Event) : Bool := validFrom ⟨[], []⟩ tr

/-- Update of the join/disconnect history bit of connection `c` and room `r`
by one event. -/
def histUpd (c : Sid) (r : RoomId) (b : Bool) (e : Event) : Bool :=
  match e with
  | .joinRoom c' r' => if c' == c && r' == r then true else b
  | .disconnect c' => if c' == c then false else b
  | _ => b

/-- History predicate of the spec invariant: `c` has sent `join(r)` and has not
since disconnected, computed from the trace alone. -/
def memberHist (c : Sid) (r : RoomId) (tr : List Event) : Bool :=
  tr.foldl (histUpd c r) false

/-- Well-formedness of a membership map: room keys are distinct, and every
member list of every entry is duplicate-free and non-empty. -/
def WFmap (m : RoomMap) : Prop :=
  (m.map Prod.fst).Nodup ∧ ∀ p ∈ m, p.2.Nodup ∧ p.2 ≠ []

/-- Reachability invariant of the relay after a valid trace `tr`: the connected
list matches that of the transport, registry membership equals the join/disconnect
history, the adapter rooms agree with the registry, every adapter-room member
is connected, and both maps are well-formed. -/
def RelayInv (tr : List Event) (s : RelayState) : Prop :=
  s.connected = (vafter ⟨[], []⟩ tr).conn ∧
  (∀ r c, memberOf s.activeRooms r c = memberHist c r tr) ∧
  (∀ r c, memberOf s.sioRooms r c = memberOf s.activeRooms r c) ∧
  (∀ r c, memberOf s.sioRooms r c = true → listMem s.connected c = true) ∧
  WFmap s.activeRooms ∧
  WFmap s.sioRooms

/-! Basic lemmas about the list and map primitives. -/

theorem listMem_iff {s : List Sid} {c : Sid} : listMem s c = true ↔ c ∈ s := by
  induction s with
  | nil => simp [listMem]
  | cons x xs ih =>
    simp only [listMem, Bool.or_eq_true, beq_iff_eq, ih, List.mem_cons]
    exact or_congr ⟨fun h => h.symm, fun h => h.symm⟩ Iff.rfl

theorem listMem_false_iff {s : List Sid} {c : Sid} : listMem s c = false ↔ c ∉ s := by
  rw [← Bool.not_eq_true, not_iff_not]
  exact listMem_iff

theorem mem_setAdd {s : List Sid} {a c : Sid} : c ∈ setAdd s a ↔ c = a ∨ c ∈ s := by
  unfold setAdd
  by_cases h : listMem s a = true
  · have ha : a ∈ s := listMem_iff.mp h
    simp only [h, if_true]
    constructor
    · exact Or.inr
    · rintro (rfl | hc)
      · exact ha
      · exact hc
  · have h' : listMem s a = false := by simpa using h
    simp only [h', Bool.false_eq_true, if_false, List.mem_append, List.mem_singleton]
    exact or_comm

theorem nodup_setAdd {s : List Sid} {a : Sid} (h : s.Nodup) : (setAdd s a).Nodup := by
  unfold setAdd
  by_cases hm : listMem s a = true
  · simpa [hm]
  · have hm' : listMem s a = false := by simpa using hm
    have hna : a ∉ s := listMem_false_iff.mp hm'
    simp only [hm', Bool.false_eq_true, if_false]
    rw [List.nodup_append]
    refine ⟨h, List.nodup_singleton a, ?_⟩
    intro x hx hx1
    rw [List.mem_singleton] at hx1
    exact hna (hx1 ▸ hx)

theorem setAdd_ne_nil {s : List Sid} {a : Sid} : setAdd s a ≠ [] := by
  unfold setAdd
  by_cases hm : listMem s a = true
  · have ha : a ∈ s := listMem_iff.mp hm
    simp only [hm, if_true]
    exact List.ne_nil_of_mem ha
  · simp [hm]

theorem mem_setDel {s : List Sid} {a c : Sid} : c ∈ setDel s a ↔ c ∈ s ∧ c ≠ a := by
  unfold setDel
  rw [List.mem_filter]
  simp

theorem listMem_setDel {s : List Sid} {a c : Sid} :
    listMem (setDel s a) c = true ↔ c ∈ s ∧ c ≠ a := by
  rw [listMem_iff]; exact mem_setDel

theorem setDel_of_not_mem {s : List Sid} {a : Sid} (h : a ∉ s) : setDel s a = s := by
  unfold setDel
  rw [List.filter_eq_self]
  intro x hx
  simp only [Bool.not_eq_eq_eq_not, Bool.not_true, beq_eq_false_iff_ne, ne_eq]
  intro hxa
  exact h (hxa ▸ hx)

theorem nodup_setDel {s : List Sid} {a : Sid} (h : s.Nodup) : (setDel s a).Nodup :=
  h.filter _

theorem setDel_setDel {s : List Sid} {a : Sid} : setDel (setDel s a) a = setDel s a := by
  apply setDel_of_not_mem
  intro h
  exact (mem_setDel.mp h).2 rfl

theorem countMem_eq_zero {s : List Sid} {c : Sid} (h : c ∉ s) : countMem s c = 0 := by
  induction s with
  | nil => rfl
  | cons x xs ih =>
    have hx : ¬ x = c := fun he => h (he ▸ List.mem_cons_self x xs)
    simp only [countMem, beq_iff_eq, hx, if_false, Nat.zero_add]
    exact ih (fun hc => h (List.mem_cons_of_mem x hc))

theorem countMem_of_nodup_mem {s : List Sid} {c : Sid} (hn : s.Nodup) (hc : c ∈ s) :
    countMem s c = 1 := by
  induction s with
  | nil => cases hc
  | cons x xs ih =>
    rcases List.mem_cons.mp hc with rfl | hc'
    · have hnx : c ∉ xs := (List.nodup_cons.mp hn).1
      simp [countMem, countMem_eq_zero hnx]
    · have hx : ¬ x = c := by
        intro he
        exact (List.nodup_cons.mp hn).1 (he ▸ hc')
      simp only [countMem, beq_iff_eq, hx, if_false, Nat.zero_add]
      exact ih (List.nodup_cons.mp hn).2 hc'

/-! Lemmas about `findRoom` and `mapSet`. -/

theorem findRoom_mem {m : RoomMap} {r : RoomId} {v : List Sid}
    (h : findRoom m r = some v) : (r, v) ∈ m := by
  induction m with
  | nil => cases h
  | cons p rest ih =>
    obtain ⟨k, w⟩ := p
    by_cases hk : k == r
    · have hkr : k = r := beq_iff_eq.mp hk
      simp only [findRoom, hk, if_true, Option.some.injEq] at h
      subst hkr; subst h
      exact List.mem_cons_self _ _
    · simp only [findRoom, hk, Bool.false_eq_true, if_false] at h
      exact List.mem_cons_of_mem _ (ih h)

theorem findRoom_none_iff {m : RoomMap} {r : RoomId} :
    findRoom m r = none ↔ r ∉ m.map Prod.fst := by
  induction m with
  | nil => simp [findRoom]
  | cons p rest ih =>
    obtain ⟨k, w⟩ := p
    by_cases hk : k == r
    · have hkr : k = r := beq_iff_eq.mp hk
      subst hkr
      simp [findRoom]
    · have hkr : ¬ k = r := by simpa using hk
      simp only [findRoom, hk, Bool.false_eq_true, if_false, List.map_cons, List.mem_cons, ih]
      constructor
      · intro hn
        rintro (h1 | h2)
        · exact hkr h1.symm
        · exact hn h2
      · intro hn h2
        exact hn (Or.inr h2)

theorem findRoom_mem_of_nodupkeys {m : RoomMap} {k : RoomId} {v : List Sid}
    (hnd : (m.map Prod.fst).Nodup) (h : (k, v) ∈ m) : findRoom m k = some v := by
  induction m with
  | nil => cases h
  | cons p rest ih =>
    obtain ⟨k0, w0⟩ := p
    rcases List.mem_cons.mp h with he | hrest
    · obtain ⟨h1, h2⟩ := Prod.mk.injEq .. ▸ he
      subst h1; subst h2
      simp [findRoom]
    · have hk0 : k0 ∉ rest.map Prod.fst := (List.nodup_cons.mp (by simpa using hnd)).1
      have hkne : ¬ k0 = k := by
        intro he
        subst he
        exact hk0 (List.mem_map.mpr ⟨(k0, v), hrest, rfl⟩)
      have hkb : (k0 == k) = false := beq_eq_false_iff_ne.mpr hkne
      simp only [findRoom, hkb, Bool.false_eq_true, if_false]
      exact ih (List.nodup_cons.mp (by simpa using hnd)).2 hrest

theorem findRoom_append {m m2 : RoomMap} {r : RoomId} :
    findRoom (m ++ m2) r =
      match findRoom m r with
      | some v => some v
      | none => findRoom m2 r := by
  induction m with
  | nil => simp [findRoom]
  | cons p rest ih =>
    obtain ⟨k, w⟩ := p
    by_cases hk : k == r
    · simp [findRoom, hk]
    · simp only [List.cons_append, findRoom, hk, Bool.false_eq_true, if_false]
      exact ih

theorem findRoom_mapSet_self {m : RoomMap} {r : RoomId} {v : List Sid} :
    findRoom (mapSet m r v) r = some v := by
  induction m with
  | nil => simp [mapSet, findRoom]
  | cons p rest ih =>
    obtain ⟨k, w⟩ := p
    by_cases hk : k == r
    · simp [mapSet, hk, findRoom]
    · simp only [mapSet, hk, Bool.false_eq_true, if_false, findRoom]
      exact ih

theorem findRoom_mapSet_ne {m : RoomMap} {r r' : RoomId} {v : List Sid} (h : r' ≠ r) :
    findRoom (mapSet m r v) r' = findRoom m r' := by
  induction m with
  | nil =>
    have : (r == r') = false := beq_eq_false_iff_ne.mpr (fun he => h he.symm)
    simp [mapSet, findRoom, this]
  | cons p rest ih =>
    obtain ⟨k, w⟩ := p
    by_cases hk : k == r
    · have hkr : k = r := beq_iff_eq.mp hk
      subst hkr
      have h1 : (k == r') = false := beq_eq_false_iff_ne.mpr (fun he => h he.symm)
      simp [mapSet, findRoom, h1]
    · simp only [mapSet, hk, Bool.false_eq_true, if_false, findRoom]
      by_cases hk' : k == r'
      · simp [hk']
      · simp only [hk', Bool.false_eq_true, if_false]
        exact ih

theorem keys_mapSet_of_found {m : RoomMap} {r : RoomId} {v w : List Sid}
    (h : findRoom m r = some w) : (mapSet m r v).map Prod.fst = m.map Prod.fst := by
  induction m with
  | nil => cases h
  | cons p rest ih =>
    obtain ⟨k, w0⟩ := p
    by_cases hk : k == r
    · have hkr : k = r := beq_iff_eq.mp hk
      subst hkr
      simp [mapSet]
    · simp only [findRoom, hk, Bool.false_eq_true, if_false] at h
      simp only [mapSet, hk, Bool.false_eq_true, if_false, List.map_cons, List.cons.injEq]
      exact ⟨trivial, ih h⟩

theorem mem_mapSet {m : RoomMap} {r : RoomId} {v : List Sid} {p : RoomId × List Sid}
    (h : p ∈ mapSet m r v) : p = (r, v) ∨ p ∈ m := by
  induction m with
  | nil =>
    simp only [mapSet, List.mem_singleton] at h
    exact Or.inl h
  | cons q rest ih =>
    obtain ⟨k, w⟩ := q
    by_cases hk : k == r
    · simp only [mapSet, hk, if_true] at h
      rcases List.mem_cons.mp h with he | hrest
      · exact Or.inl he
      · exact Or.inr (List.mem_cons_of_mem _ hrest)
    · simp only [mapSet, hk, Bool.false_eq_true, if_false] at h
      rcases List.mem_cons.mp h with he | hrest
      · exact Or.inr (he ▸ List.mem_cons_self _ _)
      · rcases ih hrest with h1 | h2
        · exact Or.inl h1
        · exact Or.inr (List.mem_cons_of_mem _ h2)

theorem mapSet_found_self {m : RoomMap} {r : RoomId} {v : List Sid}
    (h : findRoom m r = some v) : mapSet m r v = m := by
  induction m with
  | nil => cases h
  | cons p rest ih =>
    obtain ⟨k, w⟩ := p
    by_cases hk : k == r
    · have hkr : k = r := beq_iff_eq.mp hk
      simp only [findRoom, hk, if_true, Option.some.injEq] at h
      simp [mapSet, hk, hkr, h]
    · simp only [findRoom, hk, Bool.false_eq_true, if_false] at h
      simp only [mapSet, hk, Bool.false_eq_true, if_false, List.cons.injEq]
      exact ⟨trivial, ih h⟩

/-! Lemmas about `roomJoin`, `roomDisconnect`, recipients and emissions. -/

theorem memberOf_eq {m : RoomMap} {r : RoomId} {c : Sid} :
    memberOf m r c = listMem (memberList m r) c := rfl

theorem memberList_cons_ne {k : RoomId} {v : List Sid} {rest : RoomMap} {r : RoomId}
    (hk : (k == r) = false) : memberList ((k, v) :: rest) r = memberList rest r := by
  simp [memberList, findRoom, hk]

theorem memberList_roomJoin_self {m : RoomMap} {r : RoomId} {c : Sid} :
    memberList (roomJoin m r c) r = setAdd (memberList m r) c := by
  unfold roomJoin
  cases h : findRoom m r with
  | none =>
    unfold memberList
    rw [findRoom_append, h]
    simp [findRoom, setAdd, listMem]
  | some s =>
    unfold memberList
    rw [findRoom_mapSet_self, h]
    rfl

theorem memberList_roomJoin_ne {m : RoomMap} {r r' : RoomId} {c : Sid} (h : r' ≠ r) :
    memberList (roomJoin m r c) r' = memberList m r' := by
  unfold roomJoin
  cases hf : findRoom m r with
  | none =>
    unfold memberList
    rw [findRoom_append]
    cases hf' : findRoom m r' with
    | none =>
      have hrr : (r == r') = false := beq_eq_false_iff_ne.mpr (fun he => h he.symm)
      simp [findRoom, hrr]
    | some w => simp
  | some s =>
    unfold memberList
    rw [findRoom_mapSet_ne h]

theorem memberOf_roomJoin {m : RoomMap} {r r' : RoomId} {c c' : Sid} :
    memberOf (roomJoin m r c) r' c' = true ↔ ((r' = r ∧ c' = c) ∨ memberOf m r' c' = true) := by
  by_cases hr : r' = r
  · subst hr
    rw [memberOf_eq, memberOf_eq, memberList_roomJoin_self, listMem_iff, mem_setAdd,
      listMem_iff]
    constructor
    · rintro (rfl | hm)
      · exact Or.inl ⟨rfl, rfl⟩
      · exact Or.inr hm
    · rintro (⟨-, rfl⟩ | hm)
      · exact Or.inl rfl
      · exact Or.inr hm
  · rw [memberOf_eq, memberOf_eq, memberList_roomJoin_ne hr]
    constructor
    · exact Or.inr
    · rintro (⟨h1, -⟩ | hm)
      · exact absurd h1 hr
      · exact hm

theorem WFmap_roomJoin {m : RoomMap} {r : RoomId} {c : Sid} (h : WFmap m) :
    WFmap (roomJoin m r c) := by
  obtain ⟨hk, he⟩ := h
  unfold roomJoin
  cases hf : findRoom m r with
  | none =>
    constructor
    · rw [List.map_append, List.nodup_append]
      refine ⟨hk, by simp, ?_⟩
      intro x hx hx2
      simp only [List.map_cons, List.map_nil, List.mem_singleton] at hx2
      subst hx2
      exact (findRoom_none_iff.mp hf) hx
    · intro p hp
      rcases List.mem_append.mp hp with h1 | h2
      · exact he p h1
      · rw [List.mem_singleton] at h2
        subst h2
        exact ⟨List.nodup_singleton c, by simp⟩
  | some s =>
    constructor
    · rw [keys_mapSet_of_found hf]
      exact hk
    · intro p hp
      rcases mem_mapSet hp with h1 | h2
      · subst h1
        have hsm := he _ (findRoom_mem hf)
        exact ⟨nodup_setAdd hsm.1, setAdd_ne_nil⟩
      · exact he p h2

theorem roomJoin_mem_eq {m : RoomMap} {r : RoomId} {c : Sid}
    (h : memberOf m r c = true) : roomJoin m r c = m := by
  unfold roomJoin
  cases hf : findRoom m r with
  | none =>
    exfalso
    rw [memberOf_eq] at h
    unfold memberList at h
    rw [hf] at h
    simp [listMem] at h
  | some s =>
    have hsc : listMem s c = true := by
      rw [memberOf_eq] at h
      unfold memberList at h
      rw [hf] at h
      simpa using h
    show mapSet m r (setAdd s c) = m
    rw [show setAdd s c = s from by simp [setAdd, hsc]]
    exact mapSet_found_self hf

theorem findRoom_none_roomDisconnect {m : RoomMap} {c : Sid} {r : RoomId}
    (h : findRoom m r = none) : findRoom (roomDisconnect m c) r = none := by
  induction m with
  | nil => rfl
  | cons p rest ih =>
    obtain ⟨k, v⟩ := p
    by_cases hk : (k == r) = true
    · simp [findRoom, hk] at h
    · have h' : findRoom rest r = none := by simpa [findRoom, hk] using h
      by_cases hv : listMem v c = true
      · by_cases hd : (setDel v c == []) = true
        · simp only [roomDisconnect, hv, if_true, hd]
          exact ih h'
        · simp only [roomDisconnect, hv, if_true, hd, Bool.false_eq_true, if_false]
          rw [findRoom, if_neg (by simpa using hk)]
          exact ih h'
      · simp only [roomDisconnect, hv, Bool.false_eq_true, if_false]
        rw [findRoom, if_neg (by simpa using hk)]
        exact ih h'

theorem keys_roomDisconnect_sublist {m : RoomMap} {c : Sid} :
    List.Sublist ((roomDisconnect m c).map Prod.fst) (m.map Prod.fst) := by
  induction m with
  | nil => exact List.Sublist.refl _
  | cons p rest ih =>
    obtain ⟨k, v⟩ := p
    by_cases hv : listMem v c = true
    · by_cases hd : (setDel v c == []) = true
      · simp only [roomDisconnect, hv, if_true, hd, List.map_cons]
        exact ih.cons _
      · simp only [roomDisconnect, hv, if_true, hd, Bool.false_eq_true, if_false, List.map_cons]
        exact ih.cons₂ _
    · simp only [roomDisconnect, hv, Bool.false_eq_true, if_false, List.map_cons]
      exact ih.cons₂ _

theorem WFmap_tail {k : RoomId} {v : List Sid} {rest : RoomMap}
    (h : WFmap ((k, v) :: rest)) : WFmap rest := by
  obtain ⟨hk, he⟩ := h
  exact ⟨(List.nodup_cons.mp (by simpa using hk)).2,
    fun q hq => he q (List.mem_cons_of_mem _ hq)⟩

theorem WFmap_head_not_in_rest {k : RoomId} {v : List Sid} {rest : RoomMap}
    (h : WFmap ((k, v) :: rest)) : k ∉ rest.map Prod.fst :=
  (List.nodup_cons.mp (by simpa using h.1)).1

theorem WFmap_roomDisconnect {m : RoomMap} {c : Sid} (hwf : WFmap m) :
    WFmap (roomDisconnect m c) := by
  induction m with
  | nil => exact hwf
  | cons p rest ih =>
    obtain ⟨k, v⟩ := p
    have hrest := ih (WFmap_tail hwf)
    have hkr : k ∉ (roomDisconnect rest c).map Prod.fst :=
      fun hx => (WFmap_head_not_in_rest hwf) (keys_roomDisconnect_sublist.mem hx)
    have hent := hwf.2 (k, v) (List.mem_cons_self _ _)
    by_cases hv : listMem v c = true
    · by_cases hd : (setDel v c == []) = true
      · simp only [roomDisconnect, hv, if_true, hd]
        exact hrest
      · simp only [roomDisconnect, hv, if_true, hd, Bool.false_eq_true, if_false]
        constructor
        · rw [List.map_cons]
          exact List.nodup_cons.mpr ⟨hkr, hrest.1⟩
        · intro q hq
          rcases List.mem_cons.mp hq with he | hq'
          · subst he
            exact ⟨nodup_setDel hent.1, by simpa using hd⟩
          · exact hrest.2 q hq'
    · simp only [roomDisconnect, hv, Bool.false_eq_true, if_false]
      constructor
      · rw [List.map_cons]
        exact List.nodup_cons.mpr ⟨hkr, hrest.1⟩
      · intro q hq
        rcases List.mem_cons.mp hq with he | hq'
        · subst he
          exact hent
        · exact hrest.2 q hq'

theorem memberList_roomDisconnect {m : RoomMap} {c : Sid} {r : RoomId} (hwf : WFmap m) :
    memberList (roomDisconnect m c) r = setDel (memberList m r) c := by
  induction m with
  | nil => simp [roomDisconnect, memberList, findRoom, setDel]
  | cons p rest ih =>
    obtain ⟨k, v⟩ := p
    have ihr := ih (WFmap_tail hwf)
    by_cases hk : (k == r) = true
    · have hkr : k = r := beq_iff_eq.mp hk
      have hmv : memberList ((k, v) :: rest) r = v := by simp [memberList, findRoom, hk]
      rw [hmv]
      by_cases hv : listMem v c = true
      · by_cases hd : (setDel v c == []) = true
        · simp only [roomDisconnect, hv, if_true, hd]
          have hnone : findRoom rest r = none :=
            findRoom_none_iff.mpr (hkr ▸ WFmap_head_not_in_rest hwf)
          unfold memberList
          rw [findRoom_none_roomDisconnect hnone]
          simp only [Option.getD_none]
          exact (beq_iff_eq.mp hd).symm
        · simp only [roomDisconnect, hv, if_true, hd, Bool.false_eq_true, if_false]
          simp [memberList, findRoom, hk]
      · simp only [roomDisconnect, hv, Bool.false_eq_true, if_false]
        rw [show memberList ((k, v) :: roomDisconnect rest c) r = v from by
          simp [memberList, findRoom, hk]]
        exact (setDel_of_not_mem (listMem_false_iff.mp (by simpa using hv))).symm
    · rw [memberList_cons_ne (by simpa using hk)]
      by_cases hv : listMem v c = true
      · by_cases hd : (setDel v c == []) = true
        · simp only [roomDisconnect, hv, if_true, hd]
          exact ihr
        · simp only [roomDisconnect, hv, if_true, hd, Bool.false_eq_true, if_false]
          rw [memberList_cons_ne (by simpa using hk)]
          exact ihr
      · simp only [roomDisconnect, hv, Bool.false_eq_true, if_false]
        rw [memberList_cons_ne (by simpa using hk)]
        exact ihr

theorem listMem_setDel_self {s : List Sid} {a : Sid} : listMem (setDel s a) a = false :=
  Bool.eq_false_iff.mpr (fun h => (listMem_setDel.mp h).2 rfl)

theorem listMem_setDel_ne {s : List Sid} {a c : Sid} (h : c ≠ a) :
    listMem (setDel s a) c = listMem s c := by
  rw [Bool.eq_iff_iff, listMem_setDel, listMem_iff]
  exact ⟨fun hx => hx.1, fun hx => ⟨hx, h⟩⟩

theorem memberOf_roomDisconnect_self {m : RoomMap} {c : Sid} {r : RoomId} (hwf : WFmap m) :
    memberOf (roomDisconnect m c) r c = false := by
  rw [memberOf_eq, memberList_roomDisconnect hwf]
  exact listMem_setDel_self

theorem memberOf_roomDisconnect_ne {m : RoomMap} {c c' : Sid} {r : RoomId} (hwf : WFmap m)
    (h : c' ≠ c) : memberOf (roomDisconnect m c) r c' = memberOf m r c' := by
  rw [memberOf_eq, memberOf_eq, memberList_roomDisconnect hwf]
  exact listMem_setDel_ne h

theorem roomDisconnect_not_mem {m : RoomMap} {c : Sid}
    (h : ∀ p ∈ m, listMem p.2 c = false) : roomDisconnect m c = m := by
  induction m with
  | nil => rfl
  | cons p rest ih =>
    obtain ⟨k, v⟩ := p
    have hv : listMem v c = false := h (k, v) (List.mem_cons_self _ _)
    simp only [roomDisconnect, hv, Bool.false_eq_true, if_false, List.cons.injEq]
    exact ⟨trivial, ih (fun q hq => h q (List.mem_cons_of_mem _ hq))⟩

theorem disconnectEmits_not_mem {m sio : RoomMap} {c : Sid}
    (h : ∀ p ∈ m, listMem p.2 c = false) : disconnectEmits m sio c = [] := by
  induction m with
  | nil => rfl
  | cons p rest ih =>
    obtain ⟨k, v⟩ := p
    have hv : listMem v c = false := h (k, v) (List.mem_cons_self _ _)
    simp only [disconnectEmits, hv, Bool.false_eq_true, if_false]
    exact ih (fun q hq => h q (List.mem_cons_of_mem _ hq))

theorem mem_roomRecipients {sio : RoomMap} {r : RoomId} {sender d : Sid} :
    d ∈ roomRecipients sio r sender ↔ memberOf sio r d = true ∧ d ≠ sender := by
  unfold roomRecipients
  rw [List.mem_filter, memberOf_eq, listMem_iff]
  simp

theorem mem_disconnectEmits {act sio : RoomMap} {c : Sid} {dm : Delivery}
    (h : dm ∈ disconnectEmits act sio c) :
    dm.2 = Msg.userLeft c ∧ ∃ r, dm.1 ∈ roomRecipients sio r c := by
  induction act with
  | nil => cases h
  | cons p rest ih =>
    obtain ⟨k, v⟩ := p
    by_cases hv : listMem v c = true
    · simp only [disconnectEmits, hv, if_true] at h
      rcases List.mem_append.mp h with h1 | h2
      · obtain ⟨d, hd, he⟩ := List.mem_map.mp h1
        subst he
        exact ⟨rfl, k, hd⟩
      · exact ih h2
    · simp only [disconnectEmits, hv, Bool.false_eq_true, if_false] at h
      exact ih h

theorem disconnectEmits_covers {act sio : RoomMap} {c d : Sid} {r : RoomId}
    (hm : memberOf act r c = true) (hd : d ∈ roomRecipients sio r c) :
    (d, Msg.userLeft c) ∈ disconnectEmits act sio c := by
  induction act with
  | nil =>
    rw [memberOf_eq] at hm
    simp [memberList, findRoom, listMem] at hm
  | cons p rest ih =>
    obtain ⟨k, v⟩ := p
    by_cases hk : (k == r) = true
    · have hkr : k = r := beq_iff_eq.mp hk
      have hv : listMem v c = true := by
        rw [memberOf_eq] at hm
        simpa [memberList, findRoom, hk] using hm
      simp only [disconnectEmits, hv, if_true]
      apply List.mem_append.mpr
      left
      subst hkr
      exact List.mem_map.mpr ⟨d, hd, rfl⟩
    · have hm' : memberOf rest r c = true := by
        rw [memberOf_eq, ← memberList_cons_ne (v := v) (by simpa using hk), ← memberOf_eq]
        exact hm
      by_cases hv : listMem v c = true
      · simp only [disconnectEmits, hv, if_true]
        exact List.mem_append.mpr (Or.inr (ih hm'))
      · simp only [disconnectEmits, hv, Bool.false_eq_true, if_false]
        exact ih hm'

/-! Trace-level lemmas: appending events, validity decomposition, history. -/

theorem execFrom_append {s : RelayState} {tr es : List Event} :
    execFrom s (tr ++ es) = execFrom (execFrom s tr) es := by
  induction tr generalizing s with
  | nil => rfl
  | cons e rest ih =>
    rw [List.cons_append]
    show execFrom (step s e).1 (rest ++ es) = execFrom (execFrom (step s e).1 rest) es
    exact ih

theorem exec_snoc {tr : List Event} {e : Event} :
    exec (tr ++ [e]) = (step (exec tr) e).1 := by
  unfold exec
  rw [execFrom_append]
  rfl

theorem validFrom_append {v : VCtx} {tr es : List Event} :
    validFrom v (tr ++ es) = (validFrom v tr && validFrom (vafter v tr) es) := by
  induction tr generalizing v with
  | nil => simp [validFrom, vafter]
  | cons e rest ih =>
    rw [List.cons_append]
    show ((vstep v e).1 && validFrom (vstep v e).2 (rest ++ es)) =
      (((vstep v e).1 && validFrom (vstep v e).2 rest) &&
        validFrom (vafter (vstep v e).2 rest) es)
    rw [ih, Bool.and_assoc]

theorem vafter_append {v : VCtx} {tr es : List Event} :
    vafter v (tr ++ es) = vafter (vafter v tr) es := by
  induction tr generalizing v with
  | nil => rfl
  | cons e rest ih =>
    rw [List.cons_append]
    show vafter (vstep v e).2 (rest ++ es) = vafter (vafter (vstep v e).2 rest) es
    exact ih

theorem validTrace_snoc {tr : List Event} {e : Event} :
    validTrace (tr ++ [e]) = true ↔
      validTrace tr = true ∧ (vstep (vafter ⟨[], []⟩ tr) e).1 = true := by
  unfold validTrace
  rw [validFrom_append]
  simp [validFrom]

theorem validTrace_of_append {tr es : List Event}
    (h : validTrace (tr ++ es) = true) : validTrace tr = true := by
  unfold validTrace at *
  rw [validFrom_append] at h
  exact (Bool.and_eq_true_iff.mp h).1

theorem memberHist_append {c : Sid} {r : RoomId} {tr es : List Event} :
    memberHist c r (tr ++ es) = es.foldl (histUpd c r) (memberHist c r tr) := by
  unfold memberHist
  exact List.foldl_append _ _ _ _

theorem memberHist_snoc {c : Sid} {r : RoomId} {tr : List Event} {e : Event} :
    memberHist c r (tr ++ [e]) = histUpd c r (memberHist c r tr) e := by
  rw [memberHist_append]
  rfl

theorem foldl_histUpd_join_true {c : Sid} {p : RoomId} {n : Nat} :
    (List.replicate n (Event.joinRoom c p)).foldl (histUpd c p) true = true := by
  induction n with
  | zero => rfl
  | succ k ih =>
    rw [List.replicate_succ]
    simp only [List.foldl_cons]
    rw [show histUpd c p true (Event.joinRoom c p) = true from by simp [histUpd]]
    exact ih

theorem memberHist_replicate_join {c : Sid} {p : RoomId} {tr : List Event} {n : Nat}
    (h : 1 ≤ n) : memberHist c p (tr ++ List.replicate n (Event.joinRoom c p)) = true := by
  obtain ⟨k, rfl⟩ : ∃ k, n = k + 1 := ⟨n - 1, by omega⟩
  rw [memberHist_append, List.replicate_succ, List.foldl_cons]
  rw [show histUpd c p (memberHist c p tr) (Event.joinRoom c p) = true from by simp [histUpd]]
  exact foldl_histUpd_join_true

/-! The reachability invariant. -/

theorem listMem_setAdd_of {s : List Sid} {a c : Sid} (h : listMem s c = true) :
    listMem (setAdd s a) c = true :=
  listMem_iff.mpr (mem_setAdd.mpr (Or.inr (listMem_iff.mp h)))

theorem inv_nil : RelayInv [] initState := by
  refine ⟨rfl, fun r c => rfl, fun r c => rfl, ?_, ?_, ?_⟩
  · intro r c h
    exact absurd h Bool.false_ne_true
  · exact ⟨List.nodup_nil, fun p hp => absurd hp (List.not_mem_nil p)⟩
  · exact ⟨List.nodup_nil, fun p hp => absurd hp (List.not_mem_nil p)⟩

theorem inv_step {tr : List Event} {s : RelayState} {e : Event} (hinv : RelayInv tr s)
    (hen : (vstep (vafter ⟨[], []⟩ tr) e).1 = true) : RelayInv (tr ++ [e]) (step s e).1 := by
  obtain ⟨hconn, hhist, hlock, hsc, hwa, hws⟩ := hinv
  have hvaf : vafter ⟨[], []⟩ (tr ++ [e]) = (vstep (vafter ⟨[], []⟩ tr) e).2 := by
    rw [vafter_append]
    rfl
  cases e with
  | connect c =>
    refine ⟨?_, ?_, hlock, ?_, hwa, hws⟩
    · rw [hvaf]
      show setAdd s.connected c = setAdd (vafter ⟨[], []⟩ tr).conn c
      rw [hconn]
    · intro r' c'
      rw [memberHist_snoc]
      exact hhist r' c'
    · intro r' c' h
      exact listMem_setAdd_of (hsc r' c' h)
  | joinRoom c r0 =>
    have henc : listMem (vafter ⟨[], []⟩ tr).conn c = true := hen
    refine ⟨?_, ?_, ?_, ?_, WFmap_roomJoin hwa, WFmap_roomJoin hws⟩
    · rw [hvaf]
      exact hconn
    · intro r' c'
      rw [memberHist_snoc]
      show memberOf (roomJoin s.activeRooms r0 c) r' c' =
        histUpd c' r' (memberHist c' r' tr) (Event.joinRoom c r0)
      by_cases hb : (c == c' && r0 == r') = true
      · obtain ⟨hc, hr⟩ := Bool.and_eq_true_iff.mp hb
        have hc' : c = c' := beq_iff_eq.mp hc
        have hr' : r0 = r' := beq_iff_eq.mp hr
        rw [show histUpd c' r' (memberHist c' r' tr) (Event.joinRoom c r0) = true from by
          simp [histUpd, hc, hr]]
        exact memberOf_roomJoin.mpr (Or.inl ⟨hr'.symm, hc'.symm⟩)
      · rw [show histUpd c' r' (memberHist c' r' tr) (Event.joinRoom c r0) =
            memberHist c' r' tr from by simp [histUpd, hb]]
        rw [Bool.eq_iff_iff, memberOf_roomJoin, hhist r' c']
        constructor
        · rintro (⟨hr, hc⟩ | h2)
          · exfalso
            apply hb
            rw [Bool.and_eq_true_iff]
            exact ⟨beq_iff_eq.mpr hc.symm, beq_iff_eq.mpr hr.symm⟩
          · exact h2
        · exact Or.inr
    · intro r' c'
      rw [Bool.eq_iff_iff]
      show memberOf (roomJoin s.sioRooms r0 c) r' c' = true ↔
        memberOf (roomJoin s.activeRooms r0 c) r' c' = true
      rw [memberOf_roomJoin, memberOf_roomJoin, hlock r' c']
    · intro r' c' h
      show listMem s.connected c' = true
      rcases memberOf_roomJoin.mp h with ⟨-, rfl⟩ | h2
      · rw [hconn]
        exact henc
      · exact hsc r' c' h2
  | cameraUpdate c r0 pos rot =>
    refine ⟨?_, ?_, hlock, hsc, hwa, hws⟩
    · rw [hvaf]
      exact hconn
    · intro r' c'
      rw [memberHist_snoc]
      exact hhist r' c'
  | annotationAdd c r0 anno =>
    refine ⟨?_, ?_, hlock, hsc, hwa, hws⟩
    · rw [hvaf]
      exact hconn
    · intro r' c'
      rw [memberHist_snoc]
      exact hhist r' c'
  | disconnect c =>
    refine ⟨?_, ?_, ?_, ?_, WFmap_roomDisconnect hwa, WFmap_roomDisconnect hws⟩
    · rw [hvaf]
      show setDel s.connected c = setDel (vafter ⟨[], []⟩ tr).conn c
      rw [hconn]
    · intro r' c'
      rw [memberHist_snoc]
      show memberOf (roomDisconnect s.activeRooms c) r' c' =
        histUpd c' r' (memberHist c' r' tr) (Event.disconnect c)
      by_cases hc : c' = c
      · subst hc
        rw [memberOf_roomDisconnect_self hwa]
        simp [histUpd]
      · rw [memberOf_roomDisconnect_ne hwa hc, hhist r' c']
        have hb : (c == c') = false := beq_eq_false_iff_ne.mpr (fun he => hc he.symm)
        simp [histUpd, hb]
    · intro r' c'
      show memberOf (roomDisconnect s.sioRooms c) r' c' =
        memberOf (roomDisconnect s.activeRooms c) r' c'
      by_cases hc : c' = c
      · subst hc
        rw [memberOf_roomDisconnect_self hwa, memberOf_roomDisconnect_self hws]
      · rw [memberOf_roomDisconnect_ne hwa hc, memberOf_roomDisconnect_ne hws hc]
        exact hlock r' c'
    · intro r' c' h
      have h2 : memberOf (roomDisconnect s.sioRooms c) r' c' = true := h
      show listMem (setDel s.connected c) c' = true
      have hc : c' ≠ c := by
        intro he
        rw [he, memberOf_roomDisconnect_self hws] at h2
        exact absurd h2 Bool.false_ne_true
      rw [memberOf_roomDisconnect_ne hws hc] at h2
      rw [listMem_setDel_ne hc]
      exact hsc r' c' h2

theorem inv_exec {tr : List Event} (h : validTrace tr = true) : RelayInv tr (exec tr) := by
  induction tr using List.reverseRecOn with
  | nil => exact inv_nil
  | append_singleton tr e ih =>
    obtain ⟨h1, h2⟩ := validTrace_snoc.mp h
    rw [exec_snoc]
    exact inv_step (ih h1) h2

/-! Helper lemmas used by the claim theorems. -/

theorem roomDisconnect_entries_no_c {m : RoomMap} {c : Sid} :
    ∀ p ∈ roomDisconnect m c, listMem p.2 c = false := by
  induction m with
  | nil => intro p hp; exact absurd hp (List.not_mem_nil p)
  | cons q rest ih =>
    obtain ⟨k, v⟩ := q
    intro p hp
    by_cases hv : listMem v c = true
    · by_cases hd : (setDel v c == []) = true
      · simp only [roomDisconnect, hv, if_true, hd] at hp
        exact ih p hp
      · simp only [roomDisconnect, hv, if_true, hd, Bool.false_eq_true, if_false] at hp
        rcases List.mem_cons.mp hp with he | hp'
        · subst he
          exact listMem_setDel_self
        · exact ih p hp'
    · simp only [roomDisconnect, hv, Bool.false_eq_true, if_false] at hp
      rcases List.mem_cons.mp hp with he | hp'
      · subst he
        simpa using hv
      · exact ih p hp'

theorem entries_no_c_of_memberOf_false {m : RoomMap} {c : Sid}
    (hk : (m.map Prod.fst).Nodup) (h : ∀ r, memberOf m r c = false) :
    ∀ p ∈ m, listMem p.2 c = false := by
  intro p hp
  obtain ⟨k, v⟩ := p
  have hf := findRoom_mem_of_nodupkeys hk hp
  have h2 := h k
  rw [memberOf_eq] at h2
  unfold memberList at h2
  rw [hf] at h2
  simpa using h2

theorem findRoom_eq_none_of_no_members {m : RoomMap} {p : RoomId} (hwf : WFmap m)
    (h : ∀ d, memberOf m p d = false) : findRoom m p = none := by
  cases hf : findRoom m p with
  | none => rfl
  | some v =>
    exfalso
    have hv := hwf.2 (p, v) (findRoom_mem hf)
    obtain ⟨x, hx⟩ := List.exists_mem_of_ne_nil v hv.2
    have h2 := h x
    rw [memberOf_eq] at h2
    unfold memberList at h2
    rw [hf] at h2
    rw [listMem_false_iff] at h2
    exact h2 hx

theorem step_deliveries_connected {tr : List Event} (h : validTrace tr = true) (e : Event) :
    ∀ d msg, (d, msg) ∈ (step (exec tr) e).2 →
      listMem ((step (exec tr) e).1.connected) d = true := by
  obtain ⟨hconn, hhist, hlock, hsc, hwa, hws⟩ := inv_exec h
  intro d msg hm
  cases e with
  | connect c => exact absurd hm (List.not_mem_nil _)
  | joinRoom c r0 =>
    have hm2 : (d, msg) ∈ (roomRecipients (roomJoin (exec tr).sioRooms r0 c) r0 c).map
        (fun x => (x, Msg.userJoined c)) := hm
    obtain ⟨x, hx, he⟩ := List.mem_map.mp hm2
    cases he
    obtain ⟨hmem, hne⟩ := mem_roomRecipients.mp hx
    show listMem (exec tr).connected d = true
    rcases memberOf_roomJoin.mp hmem with ⟨-, rfl⟩ | h2
    · exact absurd rfl hne
    · exact hsc _ _ h2
  | cameraUpdate c r0 pos rot =>
    have hm2 : (d, msg) ∈ (roomRecipients (exec tr).sioRooms r0 c).map
        (fun x => (x, Msg.cameraUpdated c pos rot)) := hm
    obtain ⟨x, hx, he⟩ := List.mem_map.mp hm2
    cases he
    obtain ⟨hmem, -⟩ := mem_roomRecipients.mp hx
    exact hsc _ _ hmem
  | annotationAdd c r0 anno =>
    have hm2 : (d, msg) ∈ (roomRecipients (exec tr).sioRooms r0 c).map
        (fun x => (x, Msg.annotationAdded c anno)) := hm
    obtain ⟨x, hx, he⟩ := List.mem_map.mp hm2
    cases he
    obtain ⟨hmem, -⟩ := mem_roomRecipients.mp hx
    exact hsc _ _ hmem
  | disconnect c =>
    have hm2 : (d, msg) ∈
        disconnectEmits (exec tr).activeRooms (roomDisconnect (exec tr).sioRooms c) c := hm
    obtain ⟨-, r1, hd⟩ := mem_disconnectEmits hm2
    obtain ⟨hmem, hne⟩ := mem_roomRecipients.mp hd
    rw [memberOf_roomDisconnect_ne hws hne] at hmem
    show listMem (setDel (exec tr).connected c) d = true
    rw [listMem_setDel_ne hne]
    exact hsc _ _ hmem

/-! Claim theorems. -/

/-- C1: for every reachable state of the relay and every room `r`, a connection
id `c` is in the member set of `r` iff `c` has sent `join(r)` and has not since
disconnected; every delivery the relay performs goes to a currently connected
socket (never to one that has disconnected); and after the disconnect event of `c`
is processed no member entry for `c` remains in any room. -/
theorem C1_membership_invariant :
    ∀ tr : List Event, validTrace tr = true →
      ((∀ r c, memberOf (exec tr).activeRooms r c = memberHist c r tr) ∧
       (∀ e d msg, (d, msg) ∈ (step (exec tr) e).2 →
         listMem ((step (exec tr) e).1.connected) d = true) ∧
       (∀ c r, memberOf (exec (tr ++ [Event.disconnect c])).activeRooms r c = false)) := by
  intro tr hv
  obtain ⟨hconn, hhist, hlock, hsc, hwa, hws⟩ := inv_exec hv
  refine ⟨hhist, fun e => step_deliveries_connected hv e, ?_⟩
  intro c r
  rw [exec_snoc]
  show memberOf (roomDisconnect (exec tr).activeRooms c) r c = false
  exact memberOf_roomDisconnect_self hwa

/-- Witness for C1 at the concrete trace connect a, join a p. -/
theorem C1_membership_invariant_witness :
    memberOf (exec [Event.connect "a", Event.joinRoom "a" "p"]).activeRooms "p" "a" =
      memberHist "a" "p" [Event.connect "a", Event.joinRoom "a" "p"] :=
  (C1_membership_invariant [Event.connect "a", Event.joinRoom "a" "p"] (by decide)).1 "p" "a"

/-- C2: processing the disconnect of connection `c` removes `c` from every room,
delivers `user-left{c}` to each remaining member of each room `c` belonged to,
and removes the registry entry of a room when `c` was its only member. -/
theorem C2_disconnect_cleanup :
    ∀ tr c, validTrace tr = true →
      ((∀ r, memberOf (exec (tr ++ [Event.disconnect c])).activeRooms r c = false) ∧
       (∀ r d, memberOf (exec tr).activeRooms r c = true →
          memberOf (exec tr).activeRooms r d = true → d ≠ c →
          (d, Msg.userLeft c) ∈ (step (exec tr) (Event.disconnect c)).2) ∧
       (∀ r, memberOf (exec tr).activeRooms r c = true →
          (∀ d, memberOf (exec tr).activeRooms r d = true → d = c) →
          findRoom (exec (tr ++ [Event.disconnect c])).activeRooms r = none)) := by
  intro tr c hv
  obtain ⟨hconn, hhist, hlock, hsc, hwa, hws⟩ := inv_exec hv
  refine ⟨?_, ?_, ?_⟩
  · intro r
    rw [exec_snoc]
    show memberOf (roomDisconnect (exec tr).activeRooms c) r c = false
    exact memberOf_roomDisconnect_self hwa
  · intro r d hc hd hne
    show (d, Msg.userLeft c) ∈
      disconnectEmits (exec tr).activeRooms (roomDisconnect (exec tr).sioRooms c) c
    apply disconnectEmits_covers hc
    apply mem_roomRecipients.mpr
    refine ⟨?_, hne⟩
    rw [memberOf_roomDisconnect_ne hws hne, hlock]
    exact hd
  · intro r hc honly
    rw [exec_snoc]
    show findRoom (roomDisconnect (exec tr).activeRooms c) r = none
    cases hf : findRoom (exec tr).activeRooms r with
    | none =>
      exfalso
      rw [memberOf_eq] at hc
      unfold memberList at hc
      rw [hf] at hc
      simp [listMem] at hc
    | some v =>
      have hdel : setDel v c = [] := by
        rw [setDel]
        rw [List.filter_eq_nil_iff]
        intro x hx
        have hx2 : memberOf (exec tr).activeRooms r x = true := by
          rw [memberOf_eq]
          unfold memberList
          rw [hf]
          exact listMem_iff.mpr hx
        have := honly x hx2
        simp [this]
      cases hfd : findRoom (roomDisconnect (exec tr).activeRooms c) r with
      | none => rfl
      | some w =>
        exfalso
        have hml := memberList_roomDisconnect (c := c) (r := r) hwa
        unfold memberList at hml
        rw [hfd, hf] at hml
        simp only [Option.getD_some] at hml
        rw [hdel] at hml
        have hwne := (WFmap_roomDisconnect (c := c) hwa).2 (r, w) (findRoom_mem hfd)
        exact hwne.2 hml

/-- Witness for C2: after a and b join room p, disconnecting a delivers
user-left to b. -/
theorem C2_disconnect_cleanup_witness :
    ("b", Msg.userLeft "a") ∈
      (step (exec [Event.connect "a", Event.connect "b", Event.joinRoom "a" "p",
        Event.joinRoom "b" "p"]) (Event.disconnect "a")).2 :=
  (C2_disconnect_cleanup [Event.connect "a", Event.connect "b", Event.joinRoom "a" "p",
    Event.joinRoom "b" "p"] "a" (by decide)).2.1 "p" "b" (by decide) (by decide) (by decide)

/-- C3: any non-empty sequence of join(p) calls by the same connection leaves
the id of that connection in the member set of room p exactly once. -/
theorem C3_join_idempotent :
    ∀ tr c p n, 1 ≤ n →
      validTrace (tr ++ List.replicate n (Event.joinRoom c p)) = true →
      countMem (memberList
        (exec (tr ++ List.replicate n (Event.joinRoom c p))).activeRooms p) c = 1 := by
  intro tr c p n hn hv
  obtain ⟨-, hhist, -, -, hwa, -⟩ := inv_exec hv
  have hmo : memberOf (exec (tr ++ List.replicate n (Event.joinRoom c p))).activeRooms p c
      = true := by
    rw [hhist]
    exact memberHist_replicate_join hn
  rw [memberOf_eq] at hmo
  cases hf : findRoom (exec (tr ++ List.replicate n (Event.joinRoom c p))).activeRooms p with
  | none =>
    exfalso
    unfold memberList at hmo
    rw [hf] at hmo
    simp [listMem] at hmo
  | some v =>
    have hent := hwa.2 (p, v) (findRoom_mem hf)
    unfold memberList at hmo ⊢
    rw [hf] at hmo ⊢
    simp only [Option.getD_some] at hmo ⊢
    exact countMem_of_nodup_mem hent.1 (listMem_iff.mp hmo)

/-- Witness for C3 with two consecutive joins of the same room. -/
theorem C3_join_idempotent_witness :
    countMem (memberList
      (exec ([Event.connect "a"] ++
        List.replicate 2 (Event.joinRoom "a" "p"))).activeRooms "p") "a" = 1 :=
  C3_join_idempotent [Event.connect "a"] "a" "p" 2 (by decide) (by decide)

/-- C4: no broadcast of the relay (user-joined on join, camera-updated on
cameraUpdate, annotation-added on annotationAdd) ever has the sending
connection in its recipient set. -/
theorem C4_sender_never_recipient :
    ∀ (s : RelayState) (c d : Sid) (r : RoomId) (pos rot anno : String) (msg : Msg),
      ((d, msg) ∈ (step s (Event.joinRoom c r)).2 → d ≠ c) ∧
      ((d, msg) ∈ (step s (Event.cameraUpdate c r pos rot)).2 → d ≠ c) ∧
      ((d, msg) ∈ (step s (Event.annotationAdd c r anno)).2 → d ≠ c) := by
  intro s c d r pos rot anno msg
  refine ⟨?_, ?_, ?_⟩
  · intro hm
    obtain ⟨x, hx, he⟩ := List.mem_map.mp hm
    cases he
    exact (mem_roomRecipients.mp hx).2
  · intro hm
    obtain ⟨x, hx, he⟩ := List.mem_map.mp hm
    cases he
    exact (mem_roomRecipients.mp hx).2
  · intro hm
    obtain ⟨x, hx, he⟩ := List.mem_map.mp hm
    cases he
    exact (mem_roomRecipients.mp hx).2

/-- Witness for C4: a concrete camera-update delivery to a is not b. -/
theorem C4_sender_never_recipient_witness : ("a" : Sid) ≠ "b" :=
  (C4_sender_never_recipient ⟨["a", "b"], [("p", ["a", "b"])], [("p", ["a", "b"])]⟩
    "b" "a" "p" "x" "y" "z" (Msg.cameraUpdated "b" "x" "y")).2.1 (by decide)

/-- C5: a cameraUpdate by A for room p1 is delivered (as
camera-updated with userId A and the pose) to another member B of p1
and not to a connection C that joined only a different room p2. -/
theorem C5_broadcast_scoped_to_room :
    ∀ tr A B C p1 p2 pos rot, validTrace tr = true →
      memberHist A p1 tr = true → memberHist B p1 tr = true → B ≠ A →
      memberHist C p2 tr = true → memberHist C p1 tr = false →
      (((B, Msg.cameraUpdated A pos rot) ∈
          (step (exec tr) (Event.cameraUpdate A p1 pos rot)).2) ∧
       ∀ msg, (C, msg) ∉ (step (exec tr) (Event.cameraUpdate A p1 pos rot)).2) := by
  intro tr A B C p1 p2 pos rot hv hA hB hBA hC2 hC1
  obtain ⟨-, hhist, hlock, -, -, -⟩ := inv_exec hv
  constructor
  · show (B, Msg.cameraUpdated A pos rot) ∈
      (roomRecipients (exec tr).sioRooms p1 A).map (fun x => (x, Msg.cameraUpdated A pos rot))
    apply List.mem_map.mpr
    refine ⟨B, ?_, rfl⟩
    apply mem_roomRecipients.mpr
    refine ⟨?_, hBA⟩
    rw [hlock, hhist]
    exact hB
  · intro msg hm
    have hm2 : (C, msg) ∈ (roomRecipients (exec tr).sioRooms p1 A).map
        (fun x => (x, Msg.cameraUpdated A pos rot)) := hm
    obtain ⟨x, hx, he⟩ := List.mem_map.mp hm2
    have hxC : x = C := congrArg Prod.fst he
    subst hxC
    have hmem := (mem_roomRecipients.mp hx).1
    rw [hlock, hhist] at hmem
    rw [hC1] at hmem
    exact absurd hmem Bool.false_ne_true

/-- Witness for C5 with rooms p1 and p2 populated as in the claim. -/
theorem C5_broadcast_scoped_to_room_witness :
    (("b", Msg.cameraUpdated "a" "x" "y") ∈
      (step (exec [Event.connect "a", Event.connect "b", Event.connect "c",
        Event.joinRoom "a" "p1", Event.joinRoom "b" "p1", Event.joinRoom "c" "p2"])
        (Event.cameraUpdate "a" "p1" "x" "y")).2) ∧
    (("c", Msg.cameraUpdated "a" "x" "y") ∉
      (step (exec [Event.connect "a", Event.connect "b", Event.connect "c",
        Event.joinRoom "a" "p1", Event.joinRoom "b" "p1", Event.joinRoom "c" "p2"])
        (Event.cameraUpdate "a" "p1" "x" "y")).2) :=
  ⟨(C5_broadcast_scoped_to_room [Event.connect "a", Event.connect "b", Event.connect "c",
      Event.joinRoom "a" "p1", Event.joinRoom "b" "p1", Event.joinRoom "c" "p2"]
      "a" "b" "c" "p1" "p2" "x" "y" (by decide) (by decide) (by decide) (by decide)
      (by decide) (by decide)).1,
   (C5_broadcast_scoped_to_room [Event.connect "a", Event.connect "b", Event.connect "c",
      Event.joinRoom "a" "p1", Event.joinRoom "b" "p1", Event.joinRoom "c" "p2"]
      "a" "b" "c" "p1" "p2" "x" "y" (by decide) (by decide) (by decide) (by decide)
      (by decide) (by decide)).2 (Msg.cameraUpdated "a" "x" "y")⟩

/-- C6: in every reachable state a room id has a registry entry iff its member
set is non-empty (no empty room entry is ever left behind). -/
theorem C6_room_entry_iff_nonempty :
    ∀ tr, validTrace tr = true → ∀ r,
      ((findRoom (exec tr).activeRooms r).isSome = true ↔
        memberList (exec tr).activeRooms r ≠ []) := by
  intro tr hv r
  obtain ⟨-, -, -, -, hwa, -⟩ := inv_exec hv
  show (findRoom (exec tr).activeRooms r).isSome = true ↔
    (findRoom (exec tr).activeRooms r).getD [] ≠ []
  cases hf : findRoom (exec tr).activeRooms r with
  | none => simp
  | some v =>
    have hent := hwa.2 (r, v) (findRoom_mem hf)
    simp only [Option.isSome_some, Option.getD_some]
    exact ⟨fun _ => hent.2, fun _ => trivial⟩

/-- Witness for C6 at a populated room. -/
theorem C6_room_entry_iff_nonempty_witness :
    (findRoom (exec [Event.connect "a", Event.joinRoom "a" "p"]).activeRooms "p").isSome
        = true ↔
      memberList (exec [Event.connect "a", Event.joinRoom "a" "p"]).activeRooms "p" ≠ [] :=
  C6_room_entry_iff_nonempty [Event.connect "a", Event.joinRoom "a" "p"] (by decide) "p"

/-- C7: camera and annotation events naming room p are fanned out to the
members even when the sender never joined p — the relay checks nothing. -/
theorem C7_no_membership_enforcement :
    ∀ tr S p pos rot anno, validTrace tr = true → memberHist S p tr = false →
      ∀ d, memberHist d p tr = true →
        (((d, Msg.cameraUpdated S pos rot) ∈
            (step (exec tr) (Event.cameraUpdate S p pos rot)).2) ∧
         ((d, Msg.annotationAdded S anno) ∈
            (step (exec tr) (Event.annotationAdd S p anno)).2)) := by
  intro tr S p pos rot anno hv hS d hd
  obtain ⟨-, hhist, hlock, -, -, -⟩ := inv_exec hv
  have hdS : d ≠ S := by
    intro he
    rw [he, hS] at hd
    exact absurd hd Bool.false_ne_true
  have hmem : memberOf (exec tr).sioRooms p d = true := by
    rw [hlock, hhist]
    exact hd
  constructor
  · show (d, Msg.cameraUpdated S pos rot) ∈
      (roomRecipients (exec tr).sioRooms p S).map (fun x => (x, Msg.cameraUpdated S pos rot))
    exact List.mem_map.mpr ⟨d, mem_roomRecipients.mpr ⟨hmem, hdS⟩, rfl⟩
  · show (d, Msg.annotationAdded S anno) ∈
      (roomRecipients (exec tr).sioRooms p S).map (fun x => (x, Msg.annotationAdded S anno))
    exact List.mem_map.mpr ⟨d, mem_roomRecipients.mpr ⟨hmem, hdS⟩, rfl⟩

/-- Witness for C7: sender s never joined p, member a still receives both. -/
theorem C7_no_membership_enforcement_witness :
    (("a", Msg.cameraUpdated "s" "x" "y") ∈
      (step (exec [Event.connect "s", Event.connect "a", Event.joinRoom "a" "p"])
        (Event.cameraUpdate "s" "p" "x" "y")).2) ∧
    (("a", Msg.annotationAdded "s" "z") ∈
      (step (exec [Event.connect "s", Event.connect "a", Event.joinRoom "a" "p"])
        (Event.annotationAdd "s" "p" "z")).2) :=
  C7_no_membership_enforcement [Event.connect "s", Event.connect "a", Event.joinRoom "a" "p"]
    "s" "p" "x" "y" "z" (by decide) (by decide) "a" (by decide)

/-- C8: disconnect handling is total and idempotent: with no joined rooms it
leaves the registry unchanged and emits nothing, and processing a second
disconnect for the same socket changes nothing at all. -/
theorem C8_disconnect_safe_idempotent :
    ∀ tr c, validTrace tr = true →
      (((∀ r, memberHist c r tr = false) →
          ((exec (tr ++ [Event.disconnect c])).activeRooms = (exec tr).activeRooms ∧
           (step (exec tr) (Event.disconnect c)).2 = [])) ∧
       step (exec (tr ++ [Event.disconnect c])) (Event.disconnect c) =
         (exec (tr ++ [Event.disconnect c]), [])) := by
  intro tr c hv
  obtain ⟨-, hhist, hlock, -, hwa, hws⟩ := inv_exec hv
  constructor
  · intro hnever
    have hmf : ∀ r, memberOf (exec tr).activeRooms r c = false := by
      intro r
      rw [hhist]
      exact hnever r
    have hents := entries_no_c_of_memberOf_false hwa.1 hmf
    constructor
    · rw [exec_snoc]
      show roomDisconnect (exec tr).activeRooms c = (exec tr).activeRooms
      exact roomDisconnect_not_mem hents
    · show disconnectEmits (exec tr).activeRooms (roomDisconnect (exec tr).sioRooms c) c = []
      exact disconnectEmits_not_mem hents
  · rw [exec_snoc]
    have hact : roomDisconnect (roomDisconnect (exec tr).activeRooms c) c =
        roomDisconnect (exec tr).activeRooms c :=
      roomDisconnect_not_mem roomDisconnect_entries_no_c
    have hsio : roomDisconnect (roomDisconnect (exec tr).sioRooms c) c =
        roomDisconnect (exec tr).sioRooms c :=
      roomDisconnect_not_mem roomDisconnect_entries_no_c
    have hem : disconnectEmits (roomDisconnect (exec tr).activeRooms c)
        (roomDisconnect (roomDisconnect (exec tr).sioRooms c) c) c = [] :=
      disconnectEmits_not_mem roomDisconnect_entries_no_c
    show (⟨setDel (setDel (exec tr).connected c) c,
           roomDisconnect (roomDisconnect (exec tr).sioRooms c) c,
           roomDisconnect (roomDisconnect (exec tr).activeRooms c) c⟩,
          disconnectEmits (roomDisconnect (exec tr).activeRooms c)
            (roomDisconnect (roomDisconnect (exec tr).sioRooms c) c) c) =
      ((step (exec tr) (Event.disconnect c)).1, [])
    rw [hem, hact, hsio, setDel_setDel]
    rfl

/-- Witness for C8: socket a joined nothing; its disconnect is a no-op on the
registry and a second disconnect changes nothing. -/
theorem C8_disconnect_safe_idempotent_witness :
    ((exec ([Event.connect "a"] ++ [Event.disconnect "a"])).activeRooms =
        (exec [Event.connect "a"]).activeRooms) ∧
    (step (exec ([Event.connect "a"] ++ [Event.disconnect "a"])) (Event.disconnect "a") =
        (exec ([Event.connect "a"] ++ [Event.disconnect "a"]), [])) :=
  ⟨((C8_disconnect_safe_idempotent [Event.connect "a"] "a" (by decide)).1 (fun r => rfl)).1,
   (C8_disconnect_safe_idempotent [Event.connect "a"] "a" (by decide)).2⟩

/-- C9: joining an empty room emits no user-joined broadcast but does register
the joiner; a second connection joining afterwards triggers exactly one
user-joined event, delivered to the first joiner. -/
theorem C9_first_join_silent_second_notifies :
    ∀ tr A B p, validTrace tr = true →
      (∀ d, memberOf (exec tr).activeRooms p d = false) → B ≠ A →
      (((step (exec tr) (Event.joinRoom A p)).2 = []) ∧
       (memberOf ((step (exec tr) (Event.joinRoom A p)).1).activeRooms p A = true) ∧
       ((step ((step (exec tr) (Event.joinRoom A p)).1) (Event.joinRoom B p)).2 =
         [(A, Msg.userJoined B)])) := by
  intro tr A B p hv hempty hBA
  obtain ⟨-, -, hlock, -, -, hws⟩ := inv_exec hv
  have hempty2 : ∀ d, memberOf (exec tr).sioRooms p d = false := by
    intro d
    rw [hlock]
    exact hempty d
  have hnone : findRoom (exec tr).sioRooms p = none :=
    findRoom_eq_none_of_no_members hws hempty2
  have hml0 : memberList (exec tr).sioRooms p = [] := by
    unfold memberList
    rw [hnone]
    rfl
  have hml1 : memberList (roomJoin (exec tr).sioRooms p A) p = [A] := by
    rw [memberList_roomJoin_self, hml0]
    simp [setAdd, listMem]
  have hAA : (A == A) = true := by simp
  have hrec1 : roomRecipients (roomJoin (exec tr).sioRooms p A) p A = [] := by
    unfold roomRecipients
    rw [hml1]
    simp [List.filter, hAA]
  refine ⟨?_, ?_, ?_⟩
  · show (roomRecipients (roomJoin (exec tr).sioRooms p A) p A).map
      (fun x => (x, Msg.userJoined A)) = []
    rw [hrec1]
    rfl
  · show memberOf (roomJoin (exec tr).activeRooms p A) p A = true
    exact memberOf_roomJoin.mpr (Or.inl ⟨rfl, rfl⟩)
  · have hAB : (A == B) = false := beq_eq_false_iff_ne.mpr (fun he => hBA he.symm)
    have hBB : (B == B) = true := by simp
    have hml2 : memberList (roomJoin (roomJoin (exec tr).sioRooms p A) p B) p = [A, B] := by
      rw [memberList_roomJoin_self, hml1]
      show setAdd [A] B = [A, B]
      simp [setAdd, listMem, hAB]
    have hrec2 : roomRecipients (roomJoin (roomJoin (exec tr).sioRooms p A) p B) p B
        = [A] := by
      unfold roomRecipients
      rw [hml2]
      simp [List.filter, hAB, hBB]
    show (roomRecipients (roomJoin (roomJoin (exec tr).sioRooms p A) p B) p B).map
      (fun x => (x, Msg.userJoined B)) = [(A, Msg.userJoined B)]
    rw [hrec2]
    rfl

/-- Witness for C9 on a fresh room p with connections a then b. -/
theorem C9_first_join_silent_second_notifies_witness :
    ((step (exec [Event.connect "a", Event.connect "b"]) (Event.joinRoom "a" "p")).2 = []) ∧
    (memberOf ((step (exec [Event.connect "a", Event.connect "b"])
        (Event.joinRoom "a" "p")).1).activeRooms "p" "a" = true) ∧
    ((step ((step (exec [Event.connect "a", Event.connect "b"])
        (Event.joinRoom "a" "p")).1) (Event.joinRoom "b" "p")).2 =
      [("a", Msg.userJoined "b")]) :=
  C9_first_join_silent_second_notifies [Event.connect "a", Event.connect "b"] "a" "b" "p"
    (by decide) (fun d => rfl) (by decide)

/-- C10: a repeated join of the same room by an existing member leaves the
whole relay state unchanged, yet still emits a user-joined broadcast to each
other member of the room. -/
theorem C10_rejoin_emits_user_joined :
    ∀ tr c p, validTrace tr = true → memberOf (exec tr).activeRooms p c = true →
      (((step (exec tr) (Event.joinRoom c p)).1 = exec tr) ∧
       ∀ d, d ≠ c → memberOf (exec tr).activeRooms p d = true →
         (d, Msg.userJoined c) ∈ (step (exec tr) (Event.joinRoom c p)).2) := by
  intro tr c p hv hmem
  obtain ⟨-, -, hlock, -, -, -⟩ := inv_exec hv
  have hsio : memberOf (exec tr).sioRooms p c = true := by
    rw [hlock]
    exact hmem
  have h1 : roomJoin (exec tr).sioRooms p c = (exec tr).sioRooms := roomJoin_mem_eq hsio
  have h2 : roomJoin (exec tr).activeRooms p c = (exec tr).activeRooms := roomJoin_mem_eq hmem
  constructor
  · show (⟨(exec tr).connected, roomJoin (exec tr).sioRooms p c,
        roomJoin (exec tr).activeRooms p c⟩ : RelayState) = exec tr
    rw [h1, h2]
  · intro d hdc hd
    show (d, Msg.userJoined c) ∈ (roomRecipients (roomJoin (exec tr).sioRooms p c) p c).map
      (fun x => (x, Msg.userJoined c))
    apply List.mem_map.mpr
    refine ⟨d, ?_, rfl⟩
    apply mem_roomRecipients.mpr
    rw [h1]
    constructor
    · rw [hlock]
      exact hd
    · exact hdc

/-- Witness for C10: a rejoins p, state unchanged and b is notified again. -/
theorem C10_rejoin_emits_user_joined_witness :
    ((step (exec [Event.connect "a", Event.connect "b", Event.joinRoom "a" "p",
        Event.joinRoom "b" "p"]) (Event.joinRoom "a" "p")).1 =
      exec [Event.connect "a", Event.connect "b", Event.joinRoom "a" "p",
        Event.joinRoom "b" "p"]) ∧
    (("b", Msg.userJoined "a") ∈
      (step (exec [Event.connect "a", Event.connect "b", Event.joinRoom "a" "p",
        Event.joinRoom "b" "p"]) (Event.joinRoom "a" "p")).2) :=
  ⟨(C10_rejoin_emits_user_joined [Event.connect "a", Event.connect "b",
      Event.joinRoom "a" "p", Event.joinRoom "b" "p"] "a" "p" (by decide) (by decide)).1,
   (C10_rejoin_emits_user_joined [Event.connect "a", Event.connect "b",
      Event.joinRoom "a" "p", Event.joinRoom "b" "p"] "a" "p" (by decide) (by decide)).2
      "b" (by decide) (by decide)⟩
